import Mathlib

/-!
Verification development for the `EquivariantAttention` block of
`en_transformer/en_transformer.py` (En-Transformer, single-file PyTorch model).

Shallow embedding conventions:
* One batch element is modelled (the block treats batch rows independently);
  arrays become functions out of `ℕ` (indices beyond the advertised length are
  irrelevant to every statement below).
* Machine floats become exact rationals `ℚ`.  The transcendental scalar
  functions the block calls (`sqrt`, `sin`, `cos`, `exp`, `gelu`, `tanh`) are
  abstracted as an explicit bundle of functions `ℚ → ℚ` (`ScalarFuns`), so
  every theorem quantifies over them; concrete rational stand-ins below are
  used only to instantiate theorems at concrete evaluation points.
* `torch.softmax` is embedded as it is computed: logits shifted by the row
  maximum, exponentiated, divided by the row sum.
-/

/-- the transcendental scalar functions the block applies pointwise,
abstracted as rational functions. -/
structure ScalarFuns where
  sqrt : ℚ → ℚ
  sin : ℚ → ℚ
  cos : ℚ → ℚ
  exp : ℚ → ℚ
  gelu : ℚ → ℚ
  tanh : ℚ → ℚ

/-- construction-time configuration of `EquivariantAttention.__init__`
(lines 100-115 of the source). -/
structure Config where
  heads : ℕ
  dimHead : ℕ
  mDim : ℕ
  edgeDim : ℕ
  /-- `fourier_features` -/
  fourier : ℕ
  /-- `norm_rel_coors` -/
  normRelCoors : Bool
  /-- `norm_coor_weights` -/
  normCoorWeights : Bool
  /-- `num_nearest_neighbors` -/
  numNN : ℕ
  /-- `only_sparse_neighbors` -/
  onlySparse : Bool
  /-- `valid_neighbor_radius`: stored and unpacked by the source but never
  consulted afterwards (the Python default is `float('inf')`). -/
  validRadius : ℚ

/-- learned parameters of the block: the weights and biases of every
`nn.Linear` inside `EquivariantAttention`, plus the affine parameters of the
`nn.LayerNorm(1)` inside `CoorsNorm`.  Field numbering follows the position of
the layer inside its `nn.Sequential`. -/
structure Params where
  /-- `to_qkv` weight, shape `(3·heads·dimHead) × dim`, bias-free -/
  wQkv : ℕ → ℕ → ℚ
  /-- `to_out` -/
  wOut : ℕ → ℕ → ℚ
  bOut : ℕ → ℚ
  /-- `to_pos_emb` layers 0 and 2 -/
  wPos0 : ℕ → ℕ → ℚ
  bPos0 : ℕ → ℚ
  wPos2 : ℕ → ℕ → ℚ
  bPos2 : ℕ → ℚ
  /-- `edge_mlp` layers 0 and 2 -/
  wEdge0 : ℕ → ℕ → ℚ
  bEdge0 : ℕ → ℚ
  wEdge2 : ℕ → ℕ → ℚ
  bEdge2 : ℕ → ℚ
  /-- `to_attn_mlp` layers 0 and 2 -/
  wAttn0 : ℕ → ℕ → ℚ
  bAttn0 : ℕ → ℚ
  wAttn2 : ℕ → ℕ → ℚ
  bAttn2 : ℕ → ℚ
  /-- `coors_mlp` layers 0 and 2 -/
  wCoor0 : ℕ → ℕ → ℚ
  bCoor0 : ℕ → ℚ
  wCoor2 : ℕ → ℕ → ℚ
  bCoor2 : ℕ → ℚ
  /-- `CoorsNorm.fn`'s `nn.LayerNorm(1)` affine parameters -/
  lnGamma : ℚ
  lnBeta : ℚ

/-- dot product of the first `m` entries of two `ℕ`-indexed vectors. -/
def dot (m : ℕ) (f g : ℕ → ℚ) : ℚ := ∑ x ∈ Finset.range m, f x * g x

/-- `nn.Linear` with weight `W`, bias `b`, over the first `inDim` inputs. -/
def linearL (W : ℕ → ℕ → ℚ) (b : ℕ → ℚ) (inDim : ℕ) (v : ℕ → ℚ) : ℕ → ℚ :=
  fun o => dot inDim (W o) v + b o

/-- `nn.ReLU` on one scalar. -/
def relu (x : ℚ) : ℚ := max x 0

/-- `nn.ReLU` applied pointwise. -/
def reluV (v : ℕ → ℚ) : ℕ → ℚ := fun i => relu (v i)

/-- everything `EquivariantAttention.forward` works with after line 183:
configuration, parameters, scalar functions, the sizes `n` (nodes) and `d`
(feature width), the node features, the pairwise relative coordinates
`rc i j = coors i - coors j` (line 182; the raw coordinates are consumed only
there), and the optional edges and mask. -/
structure Ctx where
  cfg : Config
  p : Params
  sfs : ScalarFuns
  n : ℕ
  d : ℕ
  feats : ℕ → ℕ → ℚ
  rc : ℕ → ℕ → ℕ → ℚ
  edges : Option (ℕ → ℕ → ℕ → ℚ)
  mask : Option (ℕ → Bool)

/-- line 182: `rel_coors = coors[i] - coors[j]`. -/
def relCoors (coors : ℕ → ℕ → ℚ) : ℕ → ℕ → ℕ → ℚ :=
  fun i j a => coors i a - coors j a

/-- squared Euclidean norm of a 3-vector. -/
def sumSq (v : ℕ → ℚ) : ℚ := ∑ a ∈ Finset.range 3, v a ^ 2

/-- line 183: `rel_dist = rel_coors.norm(dim = -1, p = 2)`. -/
def relDist (c : Ctx) (i j : ℕ) : ℚ := c.sfs.sqrt (sumSq (c.rc i j))

/-- lines 187-192: the neighbor ranking; with a mask, pairs with an invalid
endpoint are overwritten with the sentinel `1e5`. -/
def ranking (c : Ctx) (i j : ℕ) : ℚ :=
  match c.mask with
  | some m => if m i && m j then relDist c i j else 100000
  | none => relDist c i j

/-- the order `topk(..., largest = False)` ranks by: ascending value, ties
broken by ascending index (a stable ascending sort). -/
def rkRel (rk : ℕ → ℚ) (a b : ℕ) : Prop :=
  rk a < rk b ∨ (rk a = rk b ∧ a ≤ b)

instance (rk : ℕ → ℚ) : DecidableRel (rkRel rk) := fun a b => by
  unfold rkRel; exact inferInstance

instance (rk : ℕ → ℚ) : IsTotal ℕ (rkRel rk) := by
  constructor
  intro a b
  rcases lt_trichotomy (rk a) (rk b) with h | h | h
  · exact Or.inl (Or.inl h)
  · rcases le_total a b with hab | hab
    · exact Or.inl (Or.inr ⟨h, hab⟩)
    · exact Or.inr (Or.inr ⟨h.symm, hab⟩)
  · exact Or.inr (Or.inl h)

instance (rk : ℕ → ℚ) : IsTrans ℕ (rkRel rk) := by
  constructor
  intro a b c hab hbc
  rcases hab with h1 | ⟨h1, h1'⟩ <;> rcases hbc with h2 | ⟨h2, h2'⟩
  · exact Or.inl (h1.trans h2)
  · exact Or.inl (h2 ▸ h1)
  · exact Or.inl (h1 ▸ h2)
  · exact Or.inr ⟨h1.trans h2, h1'.trans h2'⟩

/-- line 194: `nbhd_ranking.topk(num_nn, largest = False).indices` for one
node: the first `k` indices of the stable ascending sort of `0..n-1`. -/
def topkIdx (rk : ℕ → ℚ) (n k : ℕ) : List ℕ :=
  (List.insertionSort (rkRel rk) (List.range n)).take k

/-- the per-node neighbor index list (only consulted when `num_nn > 0`). -/
def nbhdList (c : Ctx) (i : ℕ) : List ℕ := topkIdx (ranking c i) c.n c.cfg.numNN

/-- length of the neighbor axis after line 214: `num_nn` when top-k selection
ran, otherwise `n`. -/
def nbhdJ (c : Ctx) : ℕ := if 0 < c.cfg.numNN then c.cfg.numNN else c.n

/-- node index behind neighbor slot `s` of node `i`: the gathered index when
top-k selection ran (lines 213-219), otherwise `s` itself (lines 220-222). -/
def nbhdIdx (c : Ctx) (i s : ℕ) : ℕ :=
  if 0 < c.cfg.numNN then (nbhdList c i).getD s 0 else s

/-- `fourier_encode_dist` (lines 29-36) with `include_self = True`, flattened:
entry `e` is `sin(x / 2^e)` for `e < F`, `cos(x / 2^(e-F))` for `F ≤ e < 2F`,
and the raw `x` at entry `2F`. -/
def fourierEnc (sfs : ScalarFuns) (F : ℕ) (x : ℚ) : ℕ → ℚ := fun e =>
  if e < F then sfs.sin (x / 2 ^ e)
  else if e < 2 * F then sfs.cos (x / 2 ^ (e - F))
  else x

/-- `pos_dim = fourier_features * 2 + 1` (line 127). -/
def posDim (c : Ctx) : ℕ := 2 * c.cfg.fourier + 1

/-- lines 196-202: the per-pair distance feature handed to `to_pos_emb`
(frequency-encoded when `fourier_features > 0`, else the raw distance). -/
def posFeat (c : Ctx) (i j : ℕ) : ℕ → ℚ :=
  if 0 < c.cfg.fourier then fourierEnc c.sfs c.cfg.fourier (relDist c i j)
  else fun _ => relDist c i j

/-- lines 206-207: query head `h` of node `i` (rows `0..heads·dimHead` of the
`to_qkv` weight, grouped head-major by the `(h d)` rearrangement). -/
def qF (c : Ctx) (h i a : ℕ) : ℚ :=
  dot c.d (c.p.wQkv (h * c.cfg.dimHead + a)) (c.feats i)

/-- key head `h` of node `j` (second chunk of `to_qkv`). -/
def kF (c : Ctx) (h j a : ℕ) : ℚ :=
  dot c.d (c.p.wQkv (c.cfg.heads * c.cfg.dimHead + h * c.cfg.dimHead + a)) (c.feats j)

/-- value head `h` of node `j` (third chunk of `to_qkv`). -/
def vF (c : Ctx) (h j a : ℕ) : ℚ :=
  dot c.d (c.p.wQkv (2 * (c.cfg.heads * c.cfg.dimHead) + h * c.cfg.dimHead + a)) (c.feats j)

/-- line 224: `to_pos_emb` (Linear, ReLU, Linear) on the gathered distance
feature of slot `s` of node `i`. -/
def posEmb (c : Ctx) (i s : ℕ) : ℕ → ℚ :=
  linearL c.p.wPos2 c.p.bPos2 (2 * c.cfg.dimHead)
    (reluV (linearL c.p.wPos0 c.p.bPos0 (posDim c) (posFeat c i (nbhdIdx c i s))))

/-- line 228: values with position injected. -/
def vP (c : Ctx) (h i s a : ℕ) : ℚ := vF c h (nbhdIdx c i s) a + posEmb c i s a

/-- lines 232-240: the combined query/key mask of pair `(i, slot s)`;
`true` when no mask was passed. -/
def pairMask (c : Ctx) (i s : ℕ) : Bool :=
  match c.mask with
  | some m => m i && m (nbhdIdx c i s)
  | none => true

/-- `edge_input_dim = dim_head + edge_dim` (line 128). -/
def edgeInputDim (c : Ctx) : ℕ := c.cfg.dimHead + c.cfg.edgeDim

/-- lines 244-253: `(q - k) + rel_dist_pos_emb`, concatenated with the
gathered external edge features when present. -/
def edgeInput (c : Ctx) (h i s : ℕ) : ℕ → ℚ := fun x =>
  if x < c.cfg.dimHead then
    (qF c h i x - kF c h (nbhdIdx c i s) x) + posEmb c i s x
  else
    match c.edges with
    | some e => e i (nbhdIdx c i s) (x - c.cfg.dimHead)
    | none => 0

/-- line 255: `m_ij = edge_mlp(edge_input)` — Linear, ReLU, Linear, ReLU. -/
def mIJ (c : Ctx) (h i s : ℕ) : ℕ → ℚ :=
  reluV (linearL c.p.wEdge2 c.p.bEdge2 (2 * edgeInputDim c)
    (reluV (linearL c.p.wEdge0 c.p.bEdge0 (edgeInputDim c) (edgeInput c h i s))))

/-- line 257: per-pair concatenation of the messages of every head,
head-major (`'b h i j d -> b i j (h d)'`). -/
def coorMlpIn (c : Ctx) (i s : ℕ) : ℕ → ℚ := fun x =>
  mIJ c (x / c.cfg.mDim) i s (x % c.cfg.mDim)

/-- line 258: `coors_mlp` — Linear(m·heads, 4m), ReLU, Linear(4m, 1), then a
tanh squash when `norm_coor_weights` is set.  (The source line 155 writes
`nn.TanH()`, a class `torch.nn` does not define — the class is `nn.Tanh` — so
the squash branch is modelled from the evident intent; see the C3 analysis.) -/
def coorWeightRaw (c : Ctx) (i s : ℕ) : ℚ :=
  let y :=
    linearL c.p.wCoor2 c.p.bCoor2 (4 * c.cfg.mDim)
      (reluV (linearL c.p.wCoor0 c.p.bCoor0 (c.cfg.heads * c.cfg.mDim) (coorMlpIn c i s))) 0
  if c.cfg.normCoorWeights then c.sfs.tanh y else y

/-- lines 260-262: with a mask, coordinate weights of invalid pairs are
overwritten with exactly `0`. -/
def coorWeight (c : Ctx) (i s : ℕ) : ℚ :=
  match c.mask with
  | some _ => if pairMask c i s then coorWeightRaw c i s else 0
  | none => coorWeightRaw c i s

/-- the `nn.LayerNorm(1)` inside `CoorsNorm.fn`: over a singleton axis the
mean equals the input and the biased variance is `0`, leaving only the affine
part (eps = 1e-5). -/
def layerNorm1 (c : Ctx) (x : ℚ) : ℚ :=
  let mu := x
  let varr := (x - mu) ^ 2
  c.p.lnGamma * ((x - mu) / c.sfs.sqrt (varr + 1 / 100000)) + c.p.lnBeta

/-- `CoorsNorm.forward` (lines 49-53): divide by the norm clamped to at least
`eps = 1e-8`, then scale by the gated norm (`LayerNorm(1)` then GELU). -/
def coorsNormFn (c : Ctx) (v : ℕ → ℚ) : ℕ → ℚ :=
  let norm := c.sfs.sqrt (sumSq v)
  let normed := fun a => v a / max norm (1 / 100000000)
  let phase := c.sfs.gelu (layerNorm1 c norm)
  fun a => phase * normed a

/-- line 219 / dense fallthrough: the relative coordinate vector of slot `s`
of node `i`. -/
def relCoorsSel (c : Ctx) (i s : ℕ) : ℕ → ℚ := c.rc i (nbhdIdx c i s)

/-- line 264: `rel_coors_norm` — `CoorsNorm` when `norm_rel_coors` is set,
identity otherwise. -/
def relCoorsN (c : Ctx) (i s : ℕ) : ℕ → ℚ :=
  if c.cfg.normRelCoors then coorsNormFn c (relCoorsSel c i s) else relCoorsSel c i s

/-- line 265: `coors_out = einsum('b i j, b i j c -> b i c', ...)`. -/
def coorsOut (c : Ctx) (i a : ℕ) : ℚ :=
  ∑ s ∈ Finset.range (nbhdJ c), coorWeight c i s * relCoorsN c i s a

/-- line 269: `to_attn_mlp` — Linear(m, 4m), ReLU, Linear(4m, 1). -/
def simRaw (c : Ctx) (h i s : ℕ) : ℚ :=
  linearL c.p.wAttn2 c.p.bAttn2 (4 * c.cfg.mDim)
    (reluV (linearL c.p.wAttn0 c.p.bAttn0 c.cfg.mDim (mIJ c h i s))) 0

/-- `torch.finfo(torch.float32).max = (2^24 - 1) · 2^104` exactly
(≈ 3.4028235e38). -/
def f32Max : ℚ := (2 ^ 24 - 1) * 2 ^ 104

/-- lines 271-273: with a mask, logits of invalid pairs are overwritten with
`-torch.finfo(dtype).max`. -/
def simM (c : Ctx) (h i s : ℕ) : ℚ :=
  match c.mask with
  | some _ => if pairMask c i s then simRaw c h i s else -f32Max
  | none => simRaw c h i s

/-- the row maximum the softmax shifts by, over neighbor slots `0..J-1`. -/
def rowMax (c : Ctx) (h i : ℕ) : ℚ :=
  ((List.range (nbhdJ c)).map (fun s => simM c h i s)).foldr max (simM c h i 0)

/-- line 275: `attn = sim.softmax(dim = -1)` as torch computes it — shift by
the row maximum, exponentiate, normalize over the neighbor axis. -/
def attnW (c : Ctx) (h i s : ℕ) : ℚ :=
  c.sfs.exp (simM c h i s - rowMax c h i) /
    ∑ t ∈ Finset.range (nbhdJ c), c.sfs.exp (simM c h i t - rowMax c h i)

/-- line 279: attention-weighted value sum of head `h`. -/
def outPre (c : Ctx) (h i a : ℕ) : ℚ :=
  ∑ s ∈ Finset.range (nbhdJ c), attnW c h i s * vP c h i s a

/-- lines 280-281: concatenate heads (head-major) and apply `to_out`. -/
def featsDelta (c : Ctx) (i o : ℕ) : ℚ :=
  linearL c.p.wOut c.p.bOut (c.cfg.heads * c.cfg.dimHead)
    (fun x => outPre c (x / c.cfg.dimHead) i (x % c.cfg.dimHead)) o

/-- package of lines 179-283 once the adjacency precondition passed. -/
def mkCtx (cfg : Config) (p : Params) (sfs : ScalarFuns) (n d : ℕ)
    (feats coors : ℕ → ℕ → ℚ) (edges : Option (ℕ → ℕ → ℕ → ℚ))
    (mask : Option (ℕ → Bool)) : Ctx :=
  ⟨cfg, p, sfs, n, d, feats, relCoors coors, edges, mask⟩

/-- the block's output pair `(feature_delta, coordinate_delta)`. -/
def forwardCore (cfg : Config) (p : Params) (sfs : ScalarFuns) (n d : ℕ)
    (feats coors : ℕ → ℕ → ℚ) (edges : Option (ℕ → ℕ → ℕ → ℚ))
    (mask : Option (ℕ → Bool)) : (ℕ → ℕ → ℚ) × (ℕ → ℕ → ℚ) :=
  (featsDelta (mkCtx cfg p sfs n d feats coors edges mask),
   coorsOut (mkCtx cfg p sfs n d feats coors edges mask))

/-- `EquivariantAttention.forward` (lines 167-283): the line-177 assert fails
(no output at all) exactly when `only_sparse_neighbors` is configured and no
adjacency matrix is passed; afterwards `adj_mat` is never read again. -/
def forward (cfg : Config) (p : Params) (sfs : ScalarFuns) (n d : ℕ)
    (feats coors : ℕ → ℕ → ℚ) (edges : Option (ℕ → ℕ → ℕ → ℚ))
    (mask : Option (ℕ → Bool)) (adjMat : Option (ℕ → ℕ → Bool)) :
    Option ((ℕ → ℕ → ℚ) × (ℕ → ℕ → ℚ)) :=
  if cfg.onlySparse && adjMat.isNone then none
  else some (forwardCore cfg p sfs n d feats coors edges mask)

/-! ## Concrete instantiations used to evaluate theorems at concrete points -/

/-- digit-by-digit integer square root with explicit fuel (one fuel step per
base-4 digit, so 64 steps cover every input below `4^64`). -/
def isqrtAux : ℕ → ℕ → ℕ
  | 0, _ => 0
  | fuel + 1, n =>
    let r := 2 * isqrtAux fuel (n / 4)
    if (r + 1) * (r + 1) ≤ n then r + 1 else r

/-- rational square-root stand-in; exact on perfect-square integers, which is
all the concrete evaluations below feed it. -/
def qSqrt (x : ℚ) : ℚ := (isqrtAux 64 x.num.toNat : ℚ)

/-- rational stand-in for float32 `exp`: like the float function it returns
exactly `0` beyond the underflow point and `exp 0 = 1`. -/
def qExpF (x : ℚ) : ℚ := if x ≤ -104 then 0 else 1 + x

/-- rational stand-in for `tanh`: clamp to `[-1, 1]` (so it shares the only
property of `tanh` the statements below consume). -/
def qTanh (x : ℚ) : ℚ := max (-1) (min 1 x)

/-- bundle of the concrete scalar stand-ins. -/
def testFuns : ScalarFuns :=
  ⟨qSqrt, fun x => x, fun _ => 1, qExpF, fun x => x / 2, qTanh⟩

/-- all-zero learned parameters (every MLP then outputs its zero bias). -/
def zeroParams : Params :=
  ⟨fun _ _ => 0, fun _ _ => 0, fun _ => 0, fun _ _ => 0, fun _ => 0,
   fun _ _ => 0, fun _ => 0, fun _ _ => 0, fun _ => 0, fun _ _ => 0, fun _ => 0,
   fun _ _ => 0, fun _ => 0, fun _ _ => 0, fun _ => 0, fun _ _ => 0, fun _ => 0,
   fun _ _ => 0, fun _ => 0, 0, 0⟩

/-- minimal dense configuration: one head, all widths 1, no options. -/
def cfg1 : Config := ⟨1, 1, 1, 0, 0, false, false, 0, false, 0⟩

theorem qExpF_underflow (x : ℚ) (hx : x ≤ -104) : qExpF x = 0 := by
  unfold qExpF; rw [if_pos hx]

theorem qTanh_bound (x : ℚ) : -1 ≤ qTanh x ∧ qTanh x ≤ 1 :=
  ⟨le_max_left _ _, max_le (by norm_num) (min_le_left _ _)⟩

/-! ## C8 — the adjacency precondition -/

/-- C8: `forward` fails (produces no output at all) exactly when
`only_sparse_neighbors` is configured and no adjacency matrix is passed; with
an adjacency matrix supplied the assert never fires. -/
theorem forward_assert_spec (cfg : Config) (p : Params) (sfs : ScalarFuns)
    (n d : ℕ) (feats coors : ℕ → ℕ → ℚ) (edges : Option (ℕ → ℕ → ℕ → ℚ))
    (mask : Option (ℕ → Bool)) (adjMat : Option (ℕ → ℕ → Bool)) :
    forward cfg p sfs n d feats coors edges mask adjMat = none ↔
      (cfg.onlySparse = true ∧ adjMat = none) := by
  unfold forward
  cases adjMat <;> cases h : cfg.onlySparse <;> simp [h]

/-! ## C10 — `valid_neighbor_radius` is dead configuration -/

/-- C10: two blocks identical except for `valid_neighbor_radius` produce
identical outputs on every input: the value is stored and unpacked but never
consulted. -/
theorem radius_unused (cfg : Config) (r₁ r₂ : ℚ) (p : Params) (sfs : ScalarFuns)
    (n d : ℕ) (feats coors : ℕ → ℕ → ℚ) (edges : Option (ℕ → ℕ → ℕ → ℚ))
    (mask : Option (ℕ → Bool)) (adjMat : Option (ℕ → ℕ → Bool)) :
    forward { cfg with validRadius := r₁ } p sfs n d feats coors edges mask adjMat =
    forward { cfg with validRadius := r₂ } p sfs n d feats coors edges mask adjMat := rfl

/-! ## C2 — translation invariance -/

/-- C2: adding one translation vector `t` to every input coordinate changes
neither output: the coordinates enter only through the pairwise differences of
line 182, where `t` cancels. -/
theorem translation_invariance (cfg : Config) (p : Params) (sfs : ScalarFuns)
    (n d : ℕ) (feats coors : ℕ → ℕ → ℚ) (edges : Option (ℕ → ℕ → ℕ → ℚ))
    (mask : Option (ℕ → Bool)) (t : ℕ → ℚ) :
    forwardCore cfg p sfs n d feats (fun i a => coors i a + t a) edges mask =
    forwardCore cfg p sfs n d feats coors edges mask := by
  unfold forwardCore mkCtx
  have h : relCoors (fun i a => coors i a + t a) = relCoors coors := by
    funext i j a
    show (coors i a + t a) - (coors j a + t a) = coors i a - coors j a
    ring
  rw [h]

/-! ## C6 — coordinate weights of masked pairs are exactly zero -/

/-- C6: with a mask, a pair whose either endpoint is invalid has its
coordinate weight overwritten with exactly `0` (lines 260-262), so its
summand in `coors_out` is the zero vector. -/
theorem coor_mask_zero (c : Ctx) (m : ℕ → Bool) (i s : ℕ)
    (hm : c.mask = some m) (h : ¬(m i = true ∧ m (nbhdIdx c i s) = true)) :
    coorWeight c i s = 0 ∧ ∀ a, coorWeight c i s * relCoorsN c i s a = 0 := by
  have hpm : pairMask c i s = false := by
    unfold pairMask
    rw [hm]
    cases h1 : m i <;> cases h2 : m (nbhdIdx c i s) <;> simp_all
  have hcw : coorWeight c i s = 0 := by
    unfold coorWeight
    rw [hm]
    simp [hpm]
  exact ⟨hcw, fun a => by rw [hcw, zero_mul]⟩

def maskC6 : ℕ → Bool := fun j => j == 1

def ctxC6 : Ctx :=
  ⟨cfg1, zeroParams, testFuns, 2, 1, fun _ _ => 0, relCoors (fun _ _ => 0), none, some maskC6⟩

theorem coor_mask_zero_witness :
    ctxC6.mask = some maskC6 ∧
    ¬(maskC6 0 = true ∧ maskC6 (nbhdIdx ctxC6 0 0) = true) ∧
    (coorWeight ctxC6 0 0 = 0 ∧ ∀ a, coorWeight ctxC6 0 0 * relCoorsN ctxC6 0 0 a = 0) :=
  ⟨rfl, by decide, coor_mask_zero ctxC6 maskC6 0 0 rfl (by decide)⟩

/-! ## C3 — the `norm_coor_weights` squash

The source constructs the squash as `nn.TanH() if norm_coor_weights else
nn.Identity()` (line 155).  `torch.nn` defines `Tanh`, not `TanH`, so a block
with `norm_coor_weights = True` cannot even be constructed: `__init__` raises
`AttributeError` at line 155.  The theorem below settles what the intended
layer yields: with any tanh-like squash the raw coordinate weights land in
`[-1, 1]`. -/

/-- C3 (intended behaviour): with `norm_coor_weights` enabled and a squash
bounded by `[-1, 1]` as `tanh` is, every raw coordinate weight lies in
`[-1, 1]`. -/
theorem coor_weight_tanh_bound (c : Ctx) (hcfg : c.cfg.normCoorWeights = true)
    (hb : ∀ x : ℚ, -1 ≤ c.sfs.tanh x ∧ c.sfs.tanh x ≤ 1) (i s : ℕ) :
    -1 ≤ coorWeightRaw c i s ∧ coorWeightRaw c i s ≤ 1 := by
  unfold coorWeightRaw
  rw [hcfg]
  simp only [if_true]
  exact hb _

def cfgC3 : Config := ⟨1, 1, 1, 0, 0, false, true, 0, false, 0⟩

def ctxC3 : Ctx :=
  ⟨cfgC3, zeroParams, testFuns, 1, 1, fun _ _ => 0, relCoors (fun _ _ => 0), none, none⟩

theorem coor_weight_tanh_bound_witness :
    ctxC3.cfg.normCoorWeights = true ∧
    (∀ x : ℚ, -1 ≤ ctxC3.sfs.tanh x ∧ ctxC3.sfs.tanh x ≤ 1) ∧
    (-1 ≤ coorWeightRaw ctxC3 0 0 ∧ coorWeightRaw ctxC3 0 0 ≤ 1) :=
  ⟨rfl, fun x => qTanh_bound x, coor_weight_tanh_bound ctxC3 rfl (fun x => qTanh_bound x) 0 0⟩

/-! ## C5 — attention weights of masked pairs -/

/-- C5 (amended): a pair whose key node is invalid while the query node is
valid has its logit forced to `-torch.finfo.max`; whenever the exponential
underflows to exactly `0` there (as float32 `exp` does, given the row maximum
is not itself astronomically negative), the pair's softmax weight is exactly
`0`.  (A fully masked query row instead softmaxes to uniform `1/n` — see the
counterexample.) -/
theorem attn_mask_zero (c : Ctx) (m : ℕ → Bool) (h i s : ℕ)
    (hm : c.mask = some m) (hmi : m i = true) (hmj : m (nbhdIdx c i s) = false)
    (hexp : ∀ x : ℚ, x ≤ -104 → c.sfs.exp x = 0)
    (hrow : -f32Max - rowMax c h i ≤ -104) :
    attnW c h i s = 0 := by
  have hpm : pairMask c i s = false := by
    unfold pairMask
    rw [hm]
    simp [hmi, hmj]
  have hsm : simM c h i s = -f32Max := by
    unfold simM
    rw [hm]
    simp [hpm]
  unfold attnW
  rw [hsm, hexp _ hrow, zero_div]

def maskC5 : ℕ → Bool := fun j => j == 0

def ctxC5 : Ctx :=
  ⟨cfg1, zeroParams, testFuns, 2, 1, fun _ _ => 0, relCoors (fun _ _ => 0), none, some maskC5⟩

set_option maxRecDepth 100000 in
theorem attn_mask_zero_witness :
    ctxC5.mask = some maskC5 ∧ maskC5 0 = true ∧ maskC5 (nbhdIdx ctxC5 0 1) = false ∧
    (∀ x : ℚ, x ≤ -104 → ctxC5.sfs.exp x = 0) ∧
    -f32Max - rowMax ctxC5 0 0 ≤ -104 ∧
    attnW ctxC5 0 0 1 = 0 :=
  ⟨rfl, rfl, by decide, fun x hx => qExpF_underflow x hx, by with_unfolding_all decide,
   attn_mask_zero ctxC5 maskC5 0 0 1 rfl rfl (by decide)
     (fun x hx => qExpF_underflow x hx) (by with_unfolding_all decide)⟩

def maskC5x : ℕ → Bool := fun j => j == 1

def ctxC5x : Ctx :=
  ⟨cfg1, zeroParams, testFuns, 2, 1, fun _ _ => 0, relCoors (fun _ _ => 0), none, some maskC5x⟩

set_option maxRecDepth 100000 in
/-- C5 counterexample: node `0` is marked invalid, so its whole logit row is
filled with `-torch.finfo.max`; the softmax of a constant row is uniform, so
the invalid node attends to node `1` with weight `1/2`, not `0`. -/
theorem attn_mask_uniform_cex :
    maskC5x 0 = false ∧ attnW ctxC5x 0 0 1 = 1 / 2 ∧ attnW ctxC5x 0 0 1 ≠ 0 := by
  refine ⟨rfl, by with_unfolding_all decide, by with_unfolding_all decide⟩

/-! ## C4 — the adjacency matrix is demanded and then ignored -/

def adjC4 : ℕ → ℕ → Bool := fun i j => i == j

def cfgC4 : Config := ⟨1, 1, 1, 0, 0, false, false, 0, true, 0⟩

def ctxC4 : Ctx := mkCtx cfgC4 zeroParams testFuns 2 1 (fun _ _ => 0) (fun _ _ => 0) none none

set_option maxRecDepth 100000 in
/-- C4: in sparse-only mode with `k = 0` and an adjacency matrix supplied,
`forward` runs — and never reads `adj_mat`: the pair `(0, 1)` has adjacency
`false`, yet it receives softmax attention weight `1/2` in the very run that
received this adjacency. -/
theorem adjacency_ignored_cex :
    cfgC4.onlySparse = true ∧ adjC4 0 1 = false ∧
    forward cfgC4 zeroParams testFuns 2 1 (fun _ _ => 0) (fun _ _ => 0) none none (some adjC4) =
      some (featsDelta ctxC4, coorsOut ctxC4) ∧
    attnW ctxC4 0 0 1 = 1 / 2 :=
  ⟨rfl, rfl, rfl, by with_unfolding_all decide⟩

/-! ## C7 — top-k selection under a mask -/

/-- C7 (amended): the sentinel `1e5` written into masked pairs ranks after
every valid pair whose distance is strictly below `1e5` — but only those.  So
when node `i` has at least `k` valid neighbors at distance below the sentinel,
every selected index is a valid node.  (Valid pairs at distance `≥ 1e5` can
rank behind masked pairs — see the counterexample.) -/
theorem topk_mask_valid (c : Ctx) (m : ℕ → Bool) (i : ℕ)
    (hm : c.mask = some m) (hk : 0 < c.cfg.numNN)
    (hcount : c.cfg.numNN ≤ ((List.range c.n).filter
      (fun j => m i && m j && decide (relDist c i j < 100000))).length) :
    ∀ jx ∈ nbhdList c i, m jx = true := by
  intro x hx
  by_contra hmx
  have hmx' : m x = false := by
    cases hmxv : m x
    · rfl
    · exact absurd hmxv hmx
  have hrx : ranking c i x = 100000 := by
    unfold ranking
    rw [hm]
    simp [hmx']
  set S := List.insertionSort (rkRel (ranking c i)) (List.range c.n) with hS
  have hperm : S.Perm (List.range c.n) := List.perm_insertionSort _ _
  have hnodup : S.Nodup := hperm.nodup_iff.mpr (List.nodup_range c.n)
  have hsorted : List.Pairwise (rkRel (ranking c i)) S := List.sorted_insertionSort _ _
  have hxtake : x ∈ S.take c.cfg.numNN := by
    unfold nbhdList topkIdx at hx
    exact hx
  have hxmem : x ∈ S := List.take_subset _ _ hxtake
  obtain ⟨A, B, hAB⟩ := List.append_of_mem hxmem
  have hxA : x ∉ A := by
    intro hxA
    rw [hAB] at hnodup
    rcases List.nodup_append.1 hnodup with ⟨_, _, hdisj⟩
    exact hdisj hxA (List.mem_cons_self x B)
  have hAlen : A.length < c.cfg.numNN := by
    by_contra hge
    push_neg at hge
    have htk : S.take c.cfg.numNN = A.take c.cfg.numNN := by
      rw [hAB]
      exact List.take_append_of_le_length hge
    rw [htk] at hxtake
    exact hxA (List.take_subset _ _ hxtake)
  set VG := (List.range c.n).filter
      (fun j => m i && m j && decide (relDist c i j < 100000)) with hVG
  have hVGsub : ∀ j ∈ VG, j ∈ A := by
    intro j hj
    have hjr : j ∈ List.range c.n := (List.mem_filter.1 hj).1
    have hjprop := (List.mem_filter.1 hj).2
    simp only [Bool.and_eq_true, decide_eq_true_eq] at hjprop
    obtain ⟨⟨hmi, hmj⟩, hdj⟩ := hjprop
    have hrj : ranking c i j = relDist c i j := by
      unfold ranking
      rw [hm]
      simp [hmi, hmj]
    have hjS : j ∈ S := hperm.mem_iff.mpr hjr
    rw [hAB] at hjS
    rcases List.mem_append.1 hjS with hjA | hjxB
    · exact hjA
    · exfalso
      rcases List.mem_cons.1 hjxB with hjx | hjB
      · rw [hjx, hmx'] at hmj
        exact Bool.noConfusion hmj
      · have hsorted' := hsorted
        rw [hAB] at hsorted'
        have hpw := (List.pairwise_append.1 hsorted').2.1
        have hrel : rkRel (ranking c i) x j := (List.pairwise_cons.1 hpw).1 j hjB
        have hle : ranking c i x ≤ ranking c i j := by
          rcases hrel with h | ⟨h, _⟩
          · exact le_of_lt h
          · exact le_of_eq h
        rw [hrx, hrj] at hle
        exact absurd hdj (not_lt.mpr hle)
  have hVGnodup : VG.Nodup := List.Nodup.filter _ (List.nodup_range c.n)
  have hcard : VG.length ≤ A.length := by
    have h1 : VG.toFinset ⊆ A.toFinset := by
      intro j hj
      exact List.mem_toFinset.2 (hVGsub j (List.mem_toFinset.1 hj))
    calc VG.length = VG.toFinset.card := (List.toFinset_card_of_nodup hVGnodup).symm
      _ ≤ A.toFinset.card := Finset.card_le_card h1
      _ ≤ A.length := List.toFinset_card_le A
  omega

def cfgC7w : Config := ⟨1, 1, 1, 0, 0, false, false, 1, false, 0⟩

def maskC7w : ℕ → Bool := fun _ => true

def ctxC7w : Ctx := mkCtx cfgC7w zeroParams testFuns 2 1 (fun _ _ => 0) (fun _ _ => 0) none (some maskC7w)

set_option maxRecDepth 100000 in
theorem topk_mask_valid_witness :
    ctxC7w.mask = some maskC7w ∧ 0 < ctxC7w.cfg.numNN ∧
    ctxC7w.cfg.numNN ≤ ((List.range ctxC7w.n).filter
      (fun j => maskC7w 0 && maskC7w j && decide (relDist ctxC7w 0 j < 100000))).length ∧
    ∀ jx ∈ nbhdList ctxC7w 0, maskC7w jx = true :=
  ⟨rfl, by decide, by with_unfolding_all decide,
   topk_mask_valid ctxC7w maskC7w 0 rfl (by decide) (by with_unfolding_all decide)⟩

def cfgC7x : Config := ⟨1, 1, 1, 0, 0, false, false, 2, false, 0⟩

def maskC7x : ℕ → Bool := fun j => decide (j < 2)

/-- node `1` sits `200000 > 1e5` away from node `0`; node `2` is padding. -/
def coorsC7x : ℕ → ℕ → ℚ := fun j a => if j == 1 && a == 0 then 200000 else 0

def ctxC7x : Ctx := mkCtx cfgC7x zeroParams testFuns 3 1 (fun _ _ => 0) coorsC7x none (some maskC7x)

set_option maxRecDepth 1000000 in
/-- C7 counterexample: node `0` has two valid neighbors (itself and node `1`),
at least `k = 2`, yet the selection picks the invalid node `2`: the masked
pair `(0,2)` carries the sentinel `1e5`, which ranks *before* the valid pair
`(0,1)` at distance `200000`.  The sentinel does not rank after every valid
pair, and an invalid node is selected despite `k` valid candidates. -/
theorem topk_sentinel_cex :
    maskC7x 2 = false ∧
    2 ≤ ((List.range 3).filter (fun j => maskC7x 0 && maskC7x j)).length ∧
    2 ∈ nbhdList ctxC7x 0 ∧ ¬ (1 ∈ nbhdList ctxC7x 0) := by
  refine ⟨rfl, by decide, by with_unfolding_all decide, by with_unfolding_all decide⟩

/-! ## C1 — rotation equivariance -/

/-- apply the 3×3 matrix `R` to a 3-vector. -/
def rotVec (R : ℕ → ℕ → ℚ) (v : ℕ → ℚ) : ℕ → ℚ :=
  fun a => ∑ b ∈ Finset.range 3, R a b * v b

/-- apply `R` to every coordinate row. -/
def rotCoors (R : ℕ → ℕ → ℚ) (coors : ℕ → ℕ → ℚ) : ℕ → ℕ → ℚ :=
  fun i => rotVec R (coors i)

/-- `R` has orthonormal columns (`Rᵀ·R = I` on the 3×3 block), the defining
property of a rotation used below. -/
def Ortho3 (R : ℕ → ℕ → ℚ) : Prop :=
  ∀ b, b < 3 → ∀ b', b' < 3 →
    (∑ a ∈ Finset.range 3, R a b * R a b') = if b = b' then 1 else 0

/-- the context whose relative coordinates have been rotated by `R`. -/
def rotCtx (R : ℕ → ℕ → ℚ) (c : Ctx) : Ctx :=
  { c with rc := fun i j => rotVec R (c.rc i j) }

@[simp] theorem rotCtx_cfg (R : ℕ → ℕ → ℚ) (c : Ctx) : (rotCtx R c).cfg = c.cfg := rfl
@[simp] theorem rotCtx_p (R : ℕ → ℕ → ℚ) (c : Ctx) : (rotCtx R c).p = c.p := rfl
@[simp] theorem rotCtx_sfs (R : ℕ → ℕ → ℚ) (c : Ctx) : (rotCtx R c).sfs = c.sfs := rfl
@[simp] theorem rotCtx_n (R : ℕ → ℕ → ℚ) (c : Ctx) : (rotCtx R c).n = c.n := rfl
@[simp] theorem rotCtx_d (R : ℕ → ℕ → ℚ) (c : Ctx) : (rotCtx R c).d = c.d := rfl
@[simp] theorem rotCtx_feats (R : ℕ → ℕ → ℚ) (c : Ctx) : (rotCtx R c).feats = c.feats := rfl
@[simp] theorem rotCtx_edges (R : ℕ → ℕ → ℚ) (c : Ctx) : (rotCtx R c).edges = c.edges := rfl
@[simp] theorem rotCtx_mask (R : ℕ → ℕ → ℚ) (c : Ctx) : (rotCtx R c).mask = c.mask := rfl
@[simp] theorem rotCtx_rc (R : ℕ → ℕ → ℚ) (c : Ctx) (i j : ℕ) :
    (rotCtx R c).rc i j = rotVec R (c.rc i j) := rfl

/-- a matrix with orthonormal columns preserves the squared norm. -/
theorem sumSq_rotVec (R : ℕ → ℕ → ℚ) (hR : Ortho3 R) (v : ℕ → ℚ) :
    sumSq (rotVec R v) = sumSq v := by
  unfold sumSq rotVec
  have h1 : ∀ a : ℕ, (∑ b ∈ Finset.range 3, R a b * v b) ^ 2
      = ∑ b ∈ Finset.range 3, ∑ b' ∈ Finset.range 3, R a b * R a b' * (v b * v b') := by
    intro a
    rw [sq, Finset.sum_mul_sum]
    exact Finset.sum_congr rfl fun b _ => Finset.sum_congr rfl fun b' _ => by ring
  calc ∑ a ∈ Finset.range 3, (∑ b ∈ Finset.range 3, R a b * v b) ^ 2
      = ∑ a ∈ Finset.range 3, ∑ b ∈ Finset.range 3, ∑ b' ∈ Finset.range 3,
          R a b * R a b' * (v b * v b') := Finset.sum_congr rfl fun a _ => h1 a
    _ = ∑ b ∈ Finset.range 3, ∑ b' ∈ Finset.range 3,
          (∑ a ∈ Finset.range 3, R a b * R a b') * (v b * v b') := by
        rw [Finset.sum_comm]
        refine Finset.sum_congr rfl fun b _ => ?_
        rw [Finset.sum_comm]
        exact Finset.sum_congr rfl fun b' _ => (Finset.sum_mul _ _ _).symm
    _ = ∑ b ∈ Finset.range 3, ∑ b' ∈ Finset.range 3,
          (if b = b' then (1 : ℚ) else 0) * (v b * v b') := by
        refine Finset.sum_congr rfl fun b hb => Finset.sum_congr rfl fun b' hb' => ?_
        rw [hR b (Finset.mem_range.1 hb) b' (Finset.mem_range.1 hb')]
    _ = ∑ b ∈ Finset.range 3, v b ^ 2 := by
        refine Finset.sum_congr rfl fun b hb => ?_
        simp only [ite_mul, one_mul, zero_mul]
        rw [Finset.sum_ite_eq, if_pos hb, sq]

theorem relDist_rot (R : ℕ → ℕ → ℚ) (c : Ctx) (hR : Ortho3 R) (i j : ℕ) :
    relDist (rotCtx R c) i j = relDist c i j := by
  unfold relDist
  simp only [rotCtx_sfs, rotCtx_rc]
  rw [sumSq_rotVec R hR]

theorem ranking_rot (R : ℕ → ℕ → ℚ) (c : Ctx) (hR : Ortho3 R) (i j : ℕ) :
    ranking (rotCtx R c) i j = ranking c i j := by
  unfold ranking
  simp only [rotCtx_mask, relDist_rot R c hR]

theorem nbhdList_rot (R : ℕ → ℕ → ℚ) (c : Ctx) (hR : Ortho3 R) (i : ℕ) :
    nbhdList (rotCtx R c) i = nbhdList c i := by
  unfold nbhdList
  simp only [rotCtx_cfg, rotCtx_n]
  have h : ranking (rotCtx R c) i = ranking c i := funext (ranking_rot R c hR i)
  rw [h]

theorem nbhdJ_rot (R : ℕ → ℕ → ℚ) (c : Ctx) : nbhdJ (rotCtx R c) = nbhdJ c := rfl

theorem nbhdIdx_rot (R : ℕ → ℕ → ℚ) (c : Ctx) (hR : Ortho3 R) (i s : ℕ) :
    nbhdIdx (rotCtx R c) i s = nbhdIdx c i s := by
  unfold nbhdIdx
  simp only [rotCtx_cfg, nbhdList_rot R c hR]

theorem posFeat_rot (R : ℕ → ℕ → ℚ) (c : Ctx) (hR : Ortho3 R) (i j : ℕ) :
    posFeat (rotCtx R c) i j = posFeat c i j := by
  unfold posFeat
  simp only [rotCtx_cfg, rotCtx_sfs, relDist_rot R c hR]

theorem qF_rot (R : ℕ → ℕ → ℚ) (c : Ctx) : qF (rotCtx R c) = qF c := rfl

theorem kF_rot (R : ℕ → ℕ → ℚ) (c : Ctx) : kF (rotCtx R c) = kF c := rfl

theorem vF_rot (R : ℕ → ℕ → ℚ) (c : Ctx) : vF (rotCtx R c) = vF c := rfl

theorem posEmb_rot (R : ℕ → ℕ → ℚ) (c : Ctx) (hR : Ortho3 R) (i s : ℕ) :
    posEmb (rotCtx R c) i s = posEmb c i s := by
  unfold posEmb
  simp only [rotCtx_cfg, rotCtx_p, nbhdIdx_rot R c hR, posFeat_rot R c hR]
  rfl

theorem vP_rot (R : ℕ → ℕ → ℚ) (c : Ctx) (hR : Ortho3 R) (h i s a : ℕ) :
    vP (rotCtx R c) h i s a = vP c h i s a := by
  unfold vP
  rw [vF_rot, nbhdIdx_rot R c hR, posEmb_rot R c hR]

theorem pairMask_rot (R : ℕ → ℕ → ℚ) (c : Ctx) (hR : Ortho3 R) (i s : ℕ) :
    pairMask (rotCtx R c) i s = pairMask c i s := by
  unfold pairMask
  simp only [rotCtx_mask, nbhdIdx_rot R c hR]

theorem edgeInput_rot (R : ℕ → ℕ → ℚ) (c : Ctx) (hR : Ortho3 R) (h i s : ℕ) :
    edgeInput (rotCtx R c) h i s = edgeInput c h i s := by
  unfold edgeInput
  simp only [rotCtx_cfg, rotCtx_edges, qF_rot, kF_rot,
    nbhdIdx_rot R c hR, posEmb_rot R c hR]

theorem mIJ_rot (R : ℕ → ℕ → ℚ) (c : Ctx) (hR : Ortho3 R) (h i s : ℕ) :
    mIJ (rotCtx R c) h i s = mIJ c h i s := by
  unfold mIJ edgeInputDim
  simp only [rotCtx_cfg, rotCtx_p, edgeInput_rot R c hR]

theorem coorWeightRaw_rot (R : ℕ → ℕ → ℚ) (c : Ctx) (hR : Ortho3 R) (i s : ℕ) :
    coorWeightRaw (rotCtx R c) i s = coorWeightRaw c i s := by
  unfold coorWeightRaw coorMlpIn
  simp only [rotCtx_cfg, rotCtx_p, rotCtx_sfs, mIJ_rot R c hR]

theorem coorWeight_rot (R : ℕ → ℕ → ℚ) (c : Ctx) (hR : Ortho3 R) (i s : ℕ) :
    coorWeight (rotCtx R c) i s = coorWeight c i s := by
  unfold coorWeight
  simp only [rotCtx_mask, pairMask_rot R c hR, coorWeightRaw_rot R c hR]

theorem simRaw_rot (R : ℕ → ℕ → ℚ) (c : Ctx) (hR : Ortho3 R) (h i s : ℕ) :
    simRaw (rotCtx R c) h i s = simRaw c h i s := by
  unfold simRaw
  simp only [rotCtx_cfg, rotCtx_p, mIJ_rot R c hR]

theorem simM_rot (R : ℕ → ℕ → ℚ) (c : Ctx) (hR : Ortho3 R) (h i s : ℕ) :
    simM (rotCtx R c) h i s = simM c h i s := by
  unfold simM
  simp only [rotCtx_mask, pairMask_rot R c hR, simRaw_rot R c hR]

theorem rowMax_rot (R : ℕ → ℕ → ℚ) (c : Ctx) (hR : Ortho3 R) (h i : ℕ) :
    rowMax (rotCtx R c) h i = rowMax c h i := by
  unfold rowMax
  simp only [nbhdJ_rot, simM_rot R c hR]

theorem attnW_rot (R : ℕ → ℕ → ℚ) (c : Ctx) (hR : Ortho3 R) (h i s : ℕ) :
    attnW (rotCtx R c) h i s = attnW c h i s := by
  unfold attnW
  simp only [rotCtx_sfs, nbhdJ_rot, simM_rot R c hR, rowMax_rot R c hR]

theorem outPre_rot (R : ℕ → ℕ → ℚ) (c : Ctx) (hR : Ortho3 R) (h i a : ℕ) :
    outPre (rotCtx R c) h i a = outPre c h i a := by
  unfold outPre
  simp only [nbhdJ_rot]
  exact Finset.sum_congr rfl fun s _ => by
    rw [attnW_rot R c hR, vP_rot R c hR]

/-- C1 feature half: the feature update of the rotated context is unchanged. -/
theorem featsDelta_rot (R : ℕ → ℕ → ℚ) (c : Ctx) (hR : Ortho3 R) (i o : ℕ) :
    featsDelta (rotCtx R c) i o = featsDelta c i o := by
  unfold featsDelta linearL dot
  simp only [rotCtx_cfg, rotCtx_p, outPre_rot R c hR]

theorem layerNorm1_rot (R : ℕ → ℕ → ℚ) (c : Ctx) : layerNorm1 (rotCtx R c) = layerNorm1 c := rfl

theorem relCoorsSel_rot (R : ℕ → ℕ → ℚ) (c : Ctx) (hR : Ortho3 R) (i s : ℕ) :
    relCoorsSel (rotCtx R c) i s = rotVec R (relCoorsSel c i s) := by
  unfold relCoorsSel
  simp only [rotCtx_rc, nbhdIdx_rot R c hR]

/-- `CoorsNorm` commutes with rotation: the gate depends on the (invariant)
norm, and the rescaling is linear. -/
theorem coorsNormFn_rot (R : ℕ → ℕ → ℚ) (c : Ctx) (hR : Ortho3 R) (v : ℕ → ℚ) (a : ℕ) :
    coorsNormFn (rotCtx R c) (rotVec R v) a
      = ∑ b ∈ Finset.range 3, R a b * coorsNormFn c v b := by
  simp only [coorsNormFn, rotCtx_sfs, layerNorm1_rot, sumSq_rotVec R hR]
  unfold rotVec
  rw [Finset.sum_div, Finset.mul_sum]
  exact Finset.sum_congr rfl fun b _ => by ring

/-- the (possibly `CoorsNorm`-rescaled) relative vectors rotate with `R`. -/
theorem relCoorsN_rot (R : ℕ → ℕ → ℚ) (c : Ctx) (hR : Ortho3 R) (i s a : ℕ) :
    relCoorsN (rotCtx R c) i s a = ∑ b ∈ Finset.range 3, R a b * relCoorsN c i s b := by
  unfold relCoorsN
  simp only [rotCtx_cfg, relCoorsSel_rot R c hR]
  by_cases hnb : c.cfg.normRelCoors = true
  · rw [if_pos hnb, if_pos hnb]
    exact coorsNormFn_rot R c hR (relCoorsSel c i s) a
  · rw [if_neg hnb, if_neg hnb]
    rfl

/-- C1 coordinate half: the coordinate update of the rotated context is the
rotated coordinate update. -/
theorem coorsOut_rot (R : ℕ → ℕ → ℚ) (c : Ctx) (hR : Ortho3 R) (i a : ℕ) :
    coorsOut (rotCtx R c) i a = ∑ b ∈ Finset.range 3, R a b * coorsOut c i b := by
  unfold coorsOut
  simp only [nbhdJ_rot, coorWeight_rot R c hR, relCoorsN_rot R c hR, Finset.mul_sum]
  rw [Finset.sum_comm]
  exact Finset.sum_congr rfl fun b _ => Finset.sum_congr rfl fun s _ => by ring

/-- C1: rotating every input coordinate by a matrix with orthonormal columns
leaves `feature_delta` unchanged and rotates `coordinate_delta` identically —
for every configuration (including `norm_rel_coors`), parameters, scalar
functions, features, edges and mask. -/
theorem rotation_equivariance (cfg : Config) (p : Params) (sfs : ScalarFuns)
    (n d : ℕ) (feats coors : ℕ → ℕ → ℚ) (edges : Option (ℕ → ℕ → ℕ → ℚ))
    (mask : Option (ℕ → Bool)) (R : ℕ → ℕ → ℚ) (hR : Ortho3 R) :
    (∀ i o, (forwardCore cfg p sfs n d feats (rotCoors R coors) edges mask).1 i o =
            (forwardCore cfg p sfs n d feats coors edges mask).1 i o) ∧
    (∀ i a, (forwardCore cfg p sfs n d feats (rotCoors R coors) edges mask).2 i a =
            ∑ b ∈ Finset.range 3,
              R a b * (forwardCore cfg p sfs n d feats coors edges mask).2 i b) := by
  have hctx : mkCtx cfg p sfs n d feats (rotCoors R coors) edges mask
      = rotCtx R (mkCtx cfg p sfs n d feats coors edges mask) := by
    unfold mkCtx rotCtx
    congr 1
    funext i j a
    unfold relCoors rotCoors rotVec
    rw [← Finset.sum_sub_distrib]
    exact Finset.sum_congr rfl fun b _ => by ring
  constructor
  · intro i o
    show featsDelta (mkCtx cfg p sfs n d feats (rotCoors R coors) edges mask) i o = _
    rw [hctx]
    exact featsDelta_rot R _ hR i o
  · intro i a
    show coorsOut (mkCtx cfg p sfs n d feats (rotCoors R coors) edges mask) i a = _
    rw [hctx]
    exact coorsOut_rot R _ hR i a

/-- a quarter turn around the z-axis, an orthonormal rational matrix. -/
def r90 : ℕ → ℕ → ℚ := fun a b =>
  if a == 0 && b == 1 then -1
  else if a == 1 && b == 0 then 1
  else if a == 2 && b == 2 then 1 else 0

def coorsC1 : ℕ → ℕ → ℚ := fun j a => if j == 1 && a == 0 then 1 else 0

theorem r90_ortho : Ortho3 r90 := by
  unfold Ortho3
  with_unfolding_all decide

theorem rotation_equivariance_witness :
    Ortho3 r90 ∧
    ((∀ i o,
        (forwardCore cfg1 zeroParams testFuns 2 1 (fun _ _ => 0)
            (rotCoors r90 coorsC1) none none).1 i o =
        (forwardCore cfg1 zeroParams testFuns 2 1 (fun _ _ => 0) coorsC1 none none).1 i o) ∧
     (∀ i a,
        (forwardCore cfg1 zeroParams testFuns 2 1 (fun _ _ => 0)
            (rotCoors r90 coorsC1) none none).2 i a =
        ∑ b ∈ Finset.range 3,
          r90 a b *
            (forwardCore cfg1 zeroParams testFuns 2 1 (fun _ _ => 0) coorsC1 none none).2 i b)) :=
  ⟨r90_ortho,
   rotation_equivariance cfg1 zeroParams testFuns 2 1 (fun _ _ => 0) coorsC1 none none r90
     r90_ortho⟩

/-! ## C9 — dense/sparse equivalence at `k = n` -/

/-- the identically parameterized block in dense mode (`num_nearest_neighbors = 0`). -/
def denseCtx (c : Ctx) : Ctx := { c with cfg := { c.cfg with numNN := 0 } }

@[simp] theorem nbhdIdx_dense (c : Ctx) (i s : ℕ) : nbhdIdx (denseCtx c) i s = s := rfl

@[simp] theorem nbhdJ_dense (c : Ctx) : nbhdJ (denseCtx c) = c.n := rfl

@[simp] theorem denseCtx_mask (c : Ctx) : (denseCtx c).mask = c.mask := rfl

/-- every per-slot quantity of the `k = n` block is the dense block's quantity
at the gathered node index — the gather only reindexes the neighbor axis. -/
theorem posEmb_dense (c : Ctx) (i s : ℕ) :
    posEmb c i s = posEmb (denseCtx c) i (nbhdIdx c i s) := rfl

theorem vP_dense (c : Ctx) (h i s a : ℕ) :
    vP c h i s a = vP (denseCtx c) h i (nbhdIdx c i s) a := rfl

theorem mIJ_dense (c : Ctx) (h i s : ℕ) :
    mIJ c h i s = mIJ (denseCtx c) h i (nbhdIdx c i s) := rfl

theorem coorWeightRaw_dense (c : Ctx) (i s : ℕ) :
    coorWeightRaw c i s = coorWeightRaw (denseCtx c) i (nbhdIdx c i s) := rfl

theorem simRaw_dense (c : Ctx) (h i s : ℕ) :
    simRaw c h i s = simRaw (denseCtx c) h i (nbhdIdx c i s) := rfl

theorem relCoorsN_dense (c : Ctx) (i s a : ℕ) :
    relCoorsN c i s a = relCoorsN (denseCtx c) i (nbhdIdx c i s) a := rfl

theorem simM_dense (c : Ctx) (hmask : c.mask = none) (h i s : ℕ) :
    simM c h i s = simM (denseCtx c) h i (nbhdIdx c i s) := by
  unfold simM
  simp only [denseCtx_mask, hmask]
  exact simRaw_dense c h i s

theorem coorWeight_dense (c : Ctx) (hmask : c.mask = none) (i s : ℕ) :
    coorWeight c i s = coorWeight (denseCtx c) i (nbhdIdx c i s) := by
  unfold coorWeight
  simp only [denseCtx_mask, hmask]
  exact coorWeightRaw_dense c i s

theorem sum_getD_eq (l : List ℕ) (f : ℕ → ℚ) :
    ∑ s ∈ Finset.range l.length, f (l.getD s 0) = (l.map f).sum := by
  induction l with
  | nil => simp
  | cons x xs ih =>
      rw [List.length_cons, Finset.sum_range_succ']
      simp only [List.getD_cons_succ, List.getD_cons_zero, List.map_cons, List.sum_cons]
      rw [ih]
      ring

theorem map_getD_eq (l : List ℕ) (f : ℕ → ℚ) :
    (List.range l.length).map (fun s => f (l.getD s 0)) = l.map f := by
  induction l with
  | nil => simp
  | cons x xs ih =>
      rw [List.length_cons, List.range_succ_eq_map, List.map_cons, List.map_map]
      have hcomp : ((fun s => f ((x :: xs).getD s 0)) ∘ Nat.succ) = fun s => f (xs.getD s 0) := by
        funext s
        simp [Function.comp, List.getD_cons_succ]
      rw [hcomp, ih]
      simp [List.getD_cons_zero]

theorem sum_list_range (n : ℕ) (f : ℕ → ℚ) :
    ((List.range n).map f).sum = ∑ j ∈ Finset.range n, f j := by
  induction n with
  | zero => simp
  | succ m ih =>
      rw [List.range_succ, List.map_append, List.sum_append, Finset.sum_range_succ, ih]
      simp

theorem le_foldr_max (l : List ℚ) (a : ℚ) : a ≤ l.foldr max a := by
  induction l with
  | nil => exact le_refl a
  | cons x xs ih => exact le_trans ih (le_max_right x _)

theorem mem_le_foldr_max {x : ℚ} {l : List ℚ} (a : ℚ) (hx : x ∈ l) : x ≤ l.foldr max a := by
  induction l with
  | nil => cases hx
  | cons y ys ih =>
      simp only [List.foldr_cons]
      rcases List.mem_cons.1 hx with h | h
      · rw [h]
        exact le_max_left y _
      · exact le_trans (ih h) (le_max_right y _)

theorem foldr_max_mem_or (l : List ℚ) (a : ℚ) : l.foldr max a = a ∨ l.foldr max a ∈ l := by
  induction l with
  | nil => exact Or.inl rfl
  | cons x xs ih =>
      rcases max_choice x (xs.foldr max a) with h | h
      · right
        rw [List.foldr_cons, h]
        exact List.mem_cons_self x xs
      · rcases ih with h1 | h1
        · left
          rw [List.foldr_cons, h, h1]
        · right
          rw [List.foldr_cons, h]
          exact List.mem_cons_of_mem x h1

theorem foldr_max_base_mem {l : List ℚ} {a b : ℚ} (ha : a ∈ l) (hb : b ∈ l) :
    l.foldr max a = l.foldr max b := by
  have h1 : l.foldr max a ≤ l.foldr max b := by
    rcases foldr_max_mem_or l a with h | h
    · rw [h]
      exact mem_le_foldr_max b ha
    · exact mem_le_foldr_max b h
  have h2 : l.foldr max b ≤ l.foldr max a := by
    rcases foldr_max_mem_or l b with h | h
    · rw [h]
      exact mem_le_foldr_max a hb
    · exact mem_le_foldr_max a h
  exact le_antisymm h1 h2

theorem foldr_max_perm {l l' : List ℚ} (h : l.Perm l') (a : ℚ) :
    l.foldr max a = l'.foldr max a := by
  induction h with
  | nil => rfl
  | cons x _ ih => simp only [List.foldr_cons, ih]
  | swap x y l => simp only [List.foldr_cons]; rw [max_left_comm]
  | trans _ _ ih1 ih2 => rw [ih1, ih2]

/-- at `k = n` the selection keeps all `n` indices: the neighbor list is the
full sort, a permutation of `0..n-1`. -/
theorem nbhdList_full (c : Ctx) (hnn : c.cfg.numNN = c.n) (i : ℕ) :
    (nbhdList c i).length = c.n ∧ (nbhdList c i).Perm (List.range c.n) := by
  unfold nbhdList topkIdx
  rw [hnn]
  have hlen : (List.insertionSort (rkRel (ranking c i)) (List.range c.n)).length = c.n := by
    rw [List.length_insertionSort, List.length_range]
  have htake : List.take c.n (List.insertionSort (rkRel (ranking c i)) (List.range c.n))
      = List.insertionSort (rkRel (ranking c i)) (List.range c.n) := by
    nth_rewrite 1 [← hlen]
    exact List.take_length _
  rw [htake]
  exact ⟨hlen, List.perm_insertionSort _ _⟩

theorem nbhdJ_full (c : Ctx) (hnn : c.cfg.numNN = c.n) : nbhdJ c = c.n := by
  unfold nbhdJ
  rw [hnn, ite_self]

theorem nbhdIdx_full (c : Ctx) (hnn : c.cfg.numNN = c.n) (hpos : 0 < c.n) (i s : ℕ) :
    nbhdIdx c i s = (nbhdList c i).getD s 0 := by
  unfold nbhdIdx
  rw [hnn, if_pos hpos]

/-- summing any function of the gathered node index over the `k = n` neighbor
axis is summing it over all nodes. -/
theorem sum_slots (c : Ctx) (hnn : c.cfg.numNN = c.n) (hpos : 0 < c.n) (i : ℕ) (f : ℕ → ℚ) :
    ∑ s ∈ Finset.range (nbhdJ c), f (nbhdIdx c i s) = ∑ j ∈ Finset.range c.n, f j := by
  obtain ⟨hlen, hperm⟩ := nbhdList_full c hnn i
  calc ∑ s ∈ Finset.range (nbhdJ c), f (nbhdIdx c i s)
      = ∑ s ∈ Finset.range (nbhdList c i).length, f ((nbhdList c i).getD s 0) := by
        rw [nbhdJ_full c hnn, hlen]
        exact Finset.sum_congr rfl fun s _ => by rw [nbhdIdx_full c hnn hpos]
    _ = ((nbhdList c i).map f).sum := sum_getD_eq _ f
    _ = ((List.range c.n).map f).sum := (hperm.map f).sum_eq
    _ = ∑ j ∈ Finset.range c.n, f j := sum_list_range c.n f

theorem rowMax_dense (c : Ctx) (hmask : c.mask = none) (hnn : c.cfg.numNN = c.n)
    (hpos : 0 < c.n) (h i : ℕ) :
    rowMax c h i = rowMax (denseCtx c) h i := by
  obtain ⟨hlen, hperm⟩ := nbhdList_full c hnn i
  have hne : nbhdList c i ≠ [] := by
    intro hnil
    rw [hnil] at hlen
    simp at hlen
    omega
  have hg : ∀ s, simM c h i s = simM (denseCtx c) h i ((nbhdList c i).getD s 0) := by
    intro s
    rw [simM_dense c hmask h i s, nbhdIdx_full c hnn hpos]
  have hmem1 : simM (denseCtx c) h i ((nbhdList c i).getD 0 0)
      ∈ (nbhdList c i).map (fun j => simM (denseCtx c) h i j) := by
    refine List.mem_map_of_mem _ ?_
    cases hL : nbhdList c i with
    | nil => exact absurd hL hne
    | cons y ys => rw [List.getD_cons_zero]; exact List.mem_cons_self y ys
  have hmem2 : simM (denseCtx c) h i 0
      ∈ (nbhdList c i).map (fun j => simM (denseCtx c) h i j) := by
    rw [(hperm.map (fun j => simM (denseCtx c) h i j)).mem_iff]
    exact List.mem_map_of_mem _ (List.mem_range.2 hpos)
  calc rowMax c h i
      = ((List.range c.n).map
            (fun s => simM (denseCtx c) h i ((nbhdList c i).getD s 0))).foldr
          max (simM (denseCtx c) h i ((nbhdList c i).getD 0 0)) := by
        unfold rowMax
        rw [nbhdJ_full c hnn]
        rw [show (fun s => simM c h i s)
            = fun s => simM (denseCtx c) h i ((nbhdList c i).getD s 0) from funext hg]
        rw [hg 0]
    _ = ((nbhdList c i).map (fun j => simM (denseCtx c) h i j)).foldr
          max (simM (denseCtx c) h i ((nbhdList c i).getD 0 0)) := by
        nth_rewrite 1 [← hlen]
        rw [map_getD_eq (nbhdList c i) (fun j => simM (denseCtx c) h i j)]
    _ = ((nbhdList c i).map (fun j => simM (denseCtx c) h i j)).foldr
          max (simM (denseCtx c) h i 0) := foldr_max_base_mem hmem1 hmem2
    _ = ((List.range c.n).map (fun j => simM (denseCtx c) h i j)).foldr
          max (simM (denseCtx c) h i 0) :=
        foldr_max_perm (hperm.map (fun j => simM (denseCtx c) h i j)) _
    _ = rowMax (denseCtx c) h i := by
        unfold rowMax
        rw [nbhdJ_dense]

@[simp] theorem denseCtx_p (c : Ctx) : (denseCtx c).p = c.p := rfl
@[simp] theorem denseCtx_sfs (c : Ctx) : (denseCtx c).sfs = c.sfs := rfl
@[simp] theorem denseCtx_heads (c : Ctx) : (denseCtx c).cfg.heads = c.cfg.heads := rfl
@[simp] theorem denseCtx_dimHead (c : Ctx) : (denseCtx c).cfg.dimHead = c.cfg.dimHead := rfl

theorem attnW_dense (c : Ctx) (hmask : c.mask = none) (hnn : c.cfg.numNN = c.n)
    (hpos : 0 < c.n) (h i s : ℕ) :
    attnW c h i s = attnW (denseCtx c) h i (nbhdIdx c i s) := by
  unfold attnW
  rw [rowMax_dense c hmask hnn hpos h i]
  rw [simM_dense c hmask h i s]
  have hden : (∑ t ∈ Finset.range (nbhdJ c),
        c.sfs.exp (simM c h i t - rowMax (denseCtx c) h i))
      = ∑ t ∈ Finset.range (nbhdJ (denseCtx c)),
        (denseCtx c).sfs.exp (simM (denseCtx c) h i t - rowMax (denseCtx c) h i) := by
    calc (∑ t ∈ Finset.range (nbhdJ c), c.sfs.exp (simM c h i t - rowMax (denseCtx c) h i))
        = ∑ t ∈ Finset.range (nbhdJ c),
            (fun j => c.sfs.exp (simM (denseCtx c) h i j - rowMax (denseCtx c) h i))
              (nbhdIdx c i t) :=
          Finset.sum_congr rfl fun t _ => by rw [simM_dense c hmask h i t]
      _ = ∑ j ∈ Finset.range c.n,
            c.sfs.exp (simM (denseCtx c) h i j - rowMax (denseCtx c) h i) :=
          sum_slots c hnn hpos i
            (fun j => c.sfs.exp (simM (denseCtx c) h i j - rowMax (denseCtx c) h i))
      _ = ∑ t ∈ Finset.range (nbhdJ (denseCtx c)),
            (denseCtx c).sfs.exp (simM (denseCtx c) h i t - rowMax (denseCtx c) h i) := rfl
  rw [hden]
  rfl

theorem outPre_dense (c : Ctx) (hmask : c.mask = none) (hnn : c.cfg.numNN = c.n)
    (hpos : 0 < c.n) (h i a : ℕ) :
    outPre c h i a = outPre (denseCtx c) h i a := by
  unfold outPre
  calc (∑ s ∈ Finset.range (nbhdJ c), attnW c h i s * vP c h i s a)
      = ∑ s ∈ Finset.range (nbhdJ c),
          (fun j => attnW (denseCtx c) h i j * vP (denseCtx c) h i j a) (nbhdIdx c i s) :=
        Finset.sum_congr rfl fun s _ => by
          rw [attnW_dense c hmask hnn hpos h i s, vP_dense c h i s a]
    _ = ∑ j ∈ Finset.range c.n, attnW (denseCtx c) h i j * vP (denseCtx c) h i j a :=
        sum_slots c hnn hpos i (fun j => attnW (denseCtx c) h i j * vP (denseCtx c) h i j a)
    _ = ∑ s ∈ Finset.range (nbhdJ (denseCtx c)),
          attnW (denseCtx c) h i s * vP (denseCtx c) h i s a := rfl

theorem featsDelta_dense (c : Ctx) (hmask : c.mask = none) (hnn : c.cfg.numNN = c.n)
    (hpos : 0 < c.n) (i o : ℕ) :
    featsDelta c i o = featsDelta (denseCtx c) i o := by
  unfold featsDelta linearL dot
  simp only [outPre_dense c hmask hnn hpos, denseCtx_p, denseCtx_heads, denseCtx_dimHead]

theorem coorsOut_dense (c : Ctx) (hmask : c.mask = none) (hnn : c.cfg.numNN = c.n)
    (hpos : 0 < c.n) (i a : ℕ) :
    coorsOut c i a = coorsOut (denseCtx c) i a := by
  unfold coorsOut
  calc (∑ s ∈ Finset.range (nbhdJ c), coorWeight c i s * relCoorsN c i s a)
      = ∑ s ∈ Finset.range (nbhdJ c),
          (fun j => coorWeight (denseCtx c) i j * relCoorsN (denseCtx c) i j a)
            (nbhdIdx c i s) :=
        Finset.sum_congr rfl fun s _ => by
          rw [coorWeight_dense c hmask i s, relCoorsN_dense c i s a]
    _ = ∑ j ∈ Finset.range c.n, coorWeight (denseCtx c) i j * relCoorsN (denseCtx c) i j a :=
        sum_slots c hnn hpos i (fun j => coorWeight (denseCtx c) i j * relCoorsN (denseCtx c) i j a)
    _ = ∑ s ∈ Finset.range (nbhdJ (denseCtx c)),
          coorWeight (denseCtx c) i s * relCoorsN (denseCtx c) i s a := rfl

/-- C9: with no mask and `num_nearest_neighbors = n` (every node selected),
the block produces exactly the same `(feature_delta, coordinate_delta)` as the
identically parameterized dense block (`num_nearest_neighbors = 0`): top-k
only permutes the neighbor axis, and the softmax, the weighted sums and the
row maximum are permutation-invariant. -/
theorem dense_sparse_equivalence (cfg : Config) (p : Params) (sfs : ScalarFuns)
    (n d : ℕ) (feats coors : ℕ → ℕ → ℚ) (edges : Option (ℕ → ℕ → ℕ → ℚ))
    (hnn : cfg.numNN = n) :
    (∀ i o, (forwardCore cfg p sfs n d feats coors edges none).1 i o =
            (forwardCore { cfg with numNN := 0 } p sfs n d feats coors edges none).1 i o) ∧
    (∀ i a, (forwardCore cfg p sfs n d feats coors edges none).2 i a =
            (forwardCore { cfg with numNN := 0 } p sfs n d feats coors edges none).2 i a) := by
  rcases Nat.eq_zero_or_pos n with hz | hpos
  · subst hz
    have hcfg : ({ cfg with numNN := 0 } : Config) = cfg := by
      cases cfg
      simp_all
    rw [hcfg]
    exact ⟨fun i o => rfl, fun i a => rfl⟩
  · have hmask : (mkCtx cfg p sfs n d feats coors edges none).mask = none := rfl
    have hnn' : (mkCtx cfg p sfs n d feats coors edges none).cfg.numNN
        = (mkCtx cfg p sfs n d feats coors edges none).n := hnn
    have hpos' : 0 < (mkCtx cfg p sfs n d feats coors edges none).n := hpos
    constructor
    · intro i o
      exact featsDelta_dense (mkCtx cfg p sfs n d feats coors edges none) hmask hnn' hpos' i o
    · intro i a
      exact coorsOut_dense (mkCtx cfg p sfs n d feats coors edges none) hmask hnn' hpos' i a

def cfgC9 : Config := ⟨1, 1, 1, 0, 0, false, false, 2, false, 0⟩

def coorsC9 : ℕ → ℕ → ℚ := fun j a => if j == 1 && a == 0 then 1 else 0

theorem dense_sparse_equivalence_witness :
    cfgC9.numNN = 2 ∧
    ((∀ i o,
        (forwardCore cfgC9 zeroParams testFuns 2 1 (fun _ _ => 0) coorsC9 none none).1 i o =
        (forwardCore { cfgC9 with numNN := 0 } zeroParams testFuns 2 1 (fun _ _ => 0)
            coorsC9 none none).1 i o) ∧
     (∀ i a,
        (forwardCore cfgC9 zeroParams testFuns 2 1 (fun _ _ => 0) coorsC9 none none).2 i a =
        (forwardCore { cfgC9 with numNN := 0 } zeroParams testFuns 2 1 (fun _ _ => 0)
            coorsC9 none none).2 i a)) :=
  ⟨rfl, dense_sparse_equivalence cfgC9 zeroParams testFuns 2 1 (fun _ _ => 0) coorsC9 none rfl⟩
